import Mathlib

/-!
Verification of the libcrypto core of the turtls repository against its
specification: finite-field arithmetic, elliptic-curve points (affine and
projective), ECDSA signature generation, the ChaCha20 stream cipher and
AES-GCM authenticated encryption.

Byte buffers are modelled as lists of naturals, machine integers as naturals
with explicit reduction modulo 2^32 or 2^128 where the source wraps, and
field elements as canonical residues (naturals below the modulus), following
the data model of the specification.
-/

set_option maxRecDepth 1000000

namespace Libcrypto

/-! ## Field arithmetic

Modelled from the spec (section 4.2): the module src/finite_field.rs is not
part of the provided sources, so FieldElement operations are taken from the
specification's contract: all operations produce canonical residues in
[0, p), neg returns (p - value) mod p with neg 0 = 0, inverse is computed
via Fermat's little theorem (value ^ (p - 2) mod p), and div is
multiplication by the inverse.  Field elements are naturals parameterized by
the curve's prime modulus p.
-/

def fieldAdd (p a b : Nat) : Nat := (a + b) % p

def fieldSub (p a b : Nat) : Nat := (a + p - b) % p

def fieldMul (p a b : Nat) : Nat := a * b % p

def fieldSqr (p a : Nat) : Nat := a * a % p

def fieldNeg (p a : Nat) : Nat := (p - a) % p

/-- Fuel-driven square-and-multiply modular exponentiation.  The fuel bounds
the number of halvings of the exponent; 600 units cover every exponent below
2 ^ 600, far beyond the 256-bit moduli used by the library. -/
def powModGo (m : Nat) : Nat → Nat → Nat → Nat
  | 0, _, _ => 1 % m
  | fuel+1, b, e =>
    if e = 0 then 1 % m
    else
      let r := powModGo m fuel (b * b % m) (e / 2)
      if e % 2 = 1 then r * b % m else r

def powMod (b e m : Nat) : Nat := powModGo m 600 b e

/-- Modelled from the spec (section 4.2): inverse via Fermat's little
theorem, value ^ (p - 2) mod p.  Note that 0 ^ (p - 2) mod p = 0, so zero is
mapped to zero rather than rejected, matching the undefined-on-zero policy
the spec allows. -/
def inverse (p a : Nat) : Nat := powMod a (p - 2) p

def fieldDiv (p a b : Nat) : Nat := fieldMul p a (inverse p b)

/-! ## Points

AffinePoint is translated from src/libcrypto/src/elliptic_curve/point/affine.rs.
The Rust struct is generic over a curve-parameter capability C and stores
exactly two field elements x and y; the curve prime p is passed explicitly
to each operation here in place of the phantom parameter.  Note the struct
has no representation of the point at infinity.
-/

structure AffinePoint where
  x : Nat
  y : Nat
deriving DecidableEq, Repr

structure ProjectivePoint where
  x : Nat
  y : Nat
  z : Nat
deriving DecidableEq, Repr

/-- Translation of AffinePoint::add from affine.rs: the chord slope is
(y2 - y1) / (x2 - x1), the new x is lambda ^ 2 - x1 - x2, and the new y is
computed by the source as lambda * (x1 - x2) - y1 (the source subtracts
rhs.x, not the freshly computed x). -/
def AffinePoint.add (p : Nat) (P Q : AffinePoint) : AffinePoint :=
  let lambda := fieldDiv p (fieldSub p Q.y P.y) (fieldSub p Q.x P.x)
  let x := fieldSub p (fieldSub p (fieldSqr p lambda) P.x) Q.x
  let y := fieldSub p (fieldMul p lambda (fieldSub p P.x Q.x)) P.y
  ⟨x, y⟩

/-- Translation of AffinePoint::neg from affine.rs. -/
def AffinePoint.neg (p : Nat) (P : AffinePoint) : AffinePoint :=
  ⟨P.x, fieldNeg p P.y⟩

/-- Translation of AffinePoint::as_projective from affine.rs: the projective
representative is (x, y, 1). -/
def AffinePoint.as_projective (P : AffinePoint) : ProjectivePoint :=
  ⟨P.x, P.y, 1⟩

/-- Modelled from the spec (section 4.3): projective-to-affine conversion
divides by Z; if Z = 0 the result is the point at infinity, which the
affine representation cannot encode, hence the Option.  The method body
(ProjectivePoint::as_affine) is not among the provided sources. -/
def ProjectivePoint.as_affine (p : Nat) (P : ProjectivePoint) : Option AffinePoint :=
  if P.z % p = 0 then none
  else some ⟨fieldMul p P.x (inverse p P.z), fieldMul p P.y (inverse p P.z)⟩

/-- Modelled from the spec (section 4.3): standard homogeneous projective
doubling formulas for y^2 = x^3 + a x + b, avoiding field inversion; a zero
y or z coordinate yields the point at infinity (0 : 1 : 0). -/
def ProjectivePoint.double (p a : Nat) (P : ProjectivePoint) : ProjectivePoint :=
  if P.z % p = 0 then ⟨0, 1, 0⟩
  else if P.y % p = 0 then ⟨0, 1, 0⟩
  else
    let w := fieldAdd p (fieldMul p a (fieldSqr p P.z)) (fieldMul p 3 (fieldSqr p P.x))
    let s := fieldMul p P.y P.z
    let b := fieldMul p (fieldMul p P.x P.y) s
    let h := fieldSub p (fieldSqr p w) (fieldMul p 8 b)
    ⟨fieldMul p (fieldMul p 2 h) s,
     fieldSub p (fieldMul p w (fieldSub p (fieldMul p 4 b) h))
       (fieldMul p 8 (fieldMul p (fieldSqr p P.y) (fieldSqr p s))),
     fieldMul p 8 (fieldMul p s (fieldSqr p s))⟩

/-- Modelled from the spec (section 4.3): standard homogeneous projective
addition with the explicit degenerate cases the spec lists: an infinite
operand yields the other operand, equal points dispatch to doubling, and
opposite points yield the point at infinity. -/
def ProjectivePoint.add (p a : Nat) (P Q : ProjectivePoint) : ProjectivePoint :=
  if P.z % p = 0 then Q
  else if Q.z % p = 0 then P
  else
    let u1 := fieldMul p Q.y P.z
    let u2 := fieldMul p P.y Q.z
    let v1 := fieldMul p Q.x P.z
    let v2 := fieldMul p P.x Q.z
    if v1 = v2 then
      if u1 = u2 then P.double p a else ⟨0, 1, 0⟩
    else
      let u := fieldSub p u1 u2
      let v := fieldSub p v1 v2
      let w := fieldMul p P.z Q.z
      let vv := fieldSqr p v
      let vvv := fieldMul p vv v
      let r := fieldMul p vv v2
      let a2 := fieldSub p (fieldSub p (fieldMul p (fieldSqr p u) w) vvv) (fieldMul p 2 r)
      ⟨fieldMul p v a2,
       fieldSub p (fieldMul p u (fieldSub p r a2)) (fieldMul p vvv u2),
       fieldMul p vvv w⟩

/-- Double-and-add traversal of the scalar's bits, working in projective
coordinates.  The fuel bounds the number of scalar halvings; 300 units cover
every scalar below 2 ^ 300, beyond the 256-bit scalars of the curve. -/
def mulScalarGo (p a : Nat) : Nat → Nat → ProjectivePoint → ProjectivePoint → ProjectivePoint
  | 0, _, _, acc => acc
  | fuel+1, k, base, acc =>
    if k = 0 then acc
    else
      mulScalarGo p a fuel (k / 2) (ProjectivePoint.double p a base)
        (if k % 2 = 1 then ProjectivePoint.add p a acc base else acc)

/-- Modelled from the spec (section 4.3): mul_scalar computes kP via a
double-and-add traversal of the scalar's bits, working in projective
coordinates and converting to affine only at the end; k = 0 yields the point
at infinity (None).  The method body is not among the provided sources
(AffinePoint::double and the scalar-multiplication path are left as stubs
there). -/
def mul_scalar (p a k : Nat) (P : AffinePoint) : Option AffinePoint :=
  ProjectivePoint.as_affine p (mulScalarGo p a 300 k P.as_projective ⟨0, 1, 0⟩)

/-- On-curve predicate y^2 = x^3 + a x + b over the field of prime p, as a
decidable boolean. -/
def on_curve (p a b : Nat) (P : AffinePoint) : Bool :=
  fieldSqr p P.y ==
    fieldAdd p (fieldAdd p (fieldMul p (fieldSqr p P.x) P.x) (fieldMul p a P.x)) b

/-! ## The secp256r1 curve

Modelled from the spec: the module src/elliptic_curve/secp256r1.rs is not
among the provided sources; the curve named there is the standard 256-bit
NIST curve secp256r1 (P-256), whose parameters are fixed public constants:
prime modulus, coefficients a = p - 3 and b, group order n, and base
point G.
-/

def p256 : Nat := 0xffffffff00000001000000000000000000000000ffffffffffffffffffffffff

def a256 : Nat := p256 - 3

def b256 : Nat := 0x5ac635d8aa3a93e7b3ebbd55769886bc651d06b0cc53b0f63bce3c3e27d2604b

def n256 : Nat := 0xffffffff00000000ffffffffffffffffbce6faada7179e84f3b9cac2fc632551

def G256 : AffinePoint :=
  ⟨0x6b17d1f2e12c4247f8bce6e563a440f277037d812deb33a0f4a13945d898c296,
   0x4fe342e2fe1a7f9b8ee7eb4a7c0f9e162bce33576b315ececbb6406837bf51f5⟩

/-! ## ECDSA signature generation

Translated from src/libcrypto/src/dsa/ecdsa.rs.  UBigInt::from_be_bytes
(module src/big_int.rs, not among the provided sources) is modelled from the
spec (section 4.1) as big-endian byte deserialization, and the conversion
into FieldElement reduces modulo the prime, per the canonical-residue
invariant of section 3.
-/

def from_be_bytes (bs : List Nat) : Nat := bs.foldl (fun acc b => acc * 256 + b) 0

/-- Accessor for the first coordinate of a point, modelling the source's
new_point.0 field access.  The Point type of the missing secp256r1 module
carries two coordinates; the infinity case is unrepresentable there, and is
mapped to 0 here (no claim exercises it). -/
def pointX : Option AffinePoint → Nat
  | none => 0
  | some P => P.x

/-- Translation of generate_signature from ecdsa.rs: the message hash is
deserialized big-endian into a field element, inverse is the FieldElement
inverse (modulo the prime p256) of the nonce, the point is G times the
nonce itself, and s = inverse * (hash + new_point.0 * key) in FieldElement
arithmetic (modulo p256).  The pair returned is (new_point.0, s). -/
def generate_signature (msg : List Nat) (key : Nat) (hash_func : List Nat → List Nat)
    (secret_num : Nat) : Nat × Nat :=
  let hash : Nat := from_be_bytes (hash_func msg) % p256
  let inv := inverse p256 secret_num
  let new_point := mul_scalar p256 a256 secret_num G256
  let s := fieldMul p256 inv (fieldAdd p256 hash (fieldMul p256 (pointX new_point) key))
  (pointX new_point, s)

/-! ## Spec-side ECDSA formulas

These definitions follow the specification's wording (section 4.4) rather
than the source, for comparison with the translated code.
-/

/-- The modular inverse of the nonce taken modulo the curve order n, as the
spec's step 2 demands (Fermat inversion; n256 is prime). -/
def order_inverse (k : Nat) : Nat := powMod k (n256 - 2) n256

/-- The spec's formula for the second signature component (section 4.4,
step 4): s = nonce ^ (-1) * (h + r * key) with every operation taken modulo
the curve order n and the hash reduced modulo n. -/
def s_spec (msg : List Nat) (key : Nat) (hash_func : List Nat → List Nat)
    (secret_num r : Nat) : Nat :=
  order_inverse secret_num * ((from_be_bytes (hash_func msg) % n256 + r * key) % n256) % n256

/-- The affine chord-addition formula exactly as the spec states it
(section 4.3): x3 = lambda ^ 2 - x1 - x2 and y3 = lambda * (x1 - x3) - y1,
where the subtraction inside the y formula uses the freshly computed x3. -/
def affine_add_spec (p : Nat) (P Q : AffinePoint) : AffinePoint :=
  let lambda := fieldDiv p (fieldSub p Q.y P.y) (fieldSub p Q.x P.x)
  let x := fieldSub p (fieldSub p (fieldSqr p lambda) P.x) Q.x
  let y := fieldSub p (fieldMul p lambda (fieldSub p P.x x)) P.y
  ⟨x, y⟩

/-- A constant hash function returning thirty-two zero bytes, used as a
concrete hash capability. -/
def hash_zero : List Nat → List Nat := fun _ => List.replicate 32 0

/-- A constant hash function whose output deserializes to p256 minus the
x-coordinate of 2 * G256, used to exhibit a signature whose s component is
zero. -/
def hash_c6 : List Nat → List Nat := fun _ =>
  [131, 13, 132, 230, 114, 252, 176, 130, 117, 173, 199, 252, 251, 74, 229, 60,
   63, 118, 150, 30, 136, 13, 228, 202, 89, 244, 183, 3, 184, 153, 102, 135]

/-- A concrete x-coordinate on secp256r1 lying in the interval [n256, p256):
reducing it modulo the curve order is not the identity. -/
def c3x : Nat := 0xffffffff00000000ffffffffffffffffbce6faada7179e84f3b9cac2fc632554

/-- The matching y-coordinate for c3x on secp256r1. -/
def c3y : Nat := 0x484f0c0fda434ef0a808458914f328715d7a545e198ac7eee31dffe861b5d23f

/-! ## ChaCha20

Translated from src/libcrypto/src/chacha/chacha20.rs.  The sixteen u32
words of the cipher state are the fields of a structure; u32 arithmetic
wraps modulo 2 ^ 32.
-/

namespace Chacha20

def wrapping_add (a b : Nat) : Nat := (a + b) % 4294967296

def rotate_left (x n : Nat) : Nat := ((x <<< n) % 4294967296) ||| (x >>> (32 - n))

/-- Translation of quarter_round from chacha20.rs. -/
def quarter_round : Nat × Nat × Nat × Nat → Nat × Nat × Nat × Nat
  | (a, b, c, d) =>
    let a := wrapping_add a b
    let d := rotate_left (d ^^^ a) 16
    let c := wrapping_add c d
    let b := rotate_left (b ^^^ c) 12
    let a := wrapping_add a b
    let d := rotate_left (d ^^^ a) 8
    let c := wrapping_add c d
    let b := rotate_left (b ^^^ c) 7
    (a, b, c, d)

/-- The sixteen-word cipher state, one field per array slot of the source's
state array. -/
structure State where
  s0 : Nat
  s1 : Nat
  s2 : Nat
  s3 : Nat
  s4 : Nat
  s5 : Nat
  s6 : Nat
  s7 : Nat
  s8 : Nat
  s9 : Nat
  s10 : Nat
  s11 : Nat
  s12 : Nat
  s13 : Nat
  s14 : Nat
  s15 : Nat

/-- Translation of inner_block from chacha20.rs: four column rounds followed
by four diagonal rounds. -/
def inner_block (st : State) : State :=
  let (a0, a4, a8, a12) := quarter_round (st.s0, st.s4, st.s8, st.s12)
  let (a1, a5, a9, a13) := quarter_round (st.s1, st.s5, st.s9, st.s13)
  let (a2, a6, a10, a14) := quarter_round (st.s2, st.s6, st.s10, st.s14)
  let (a3, a7, a11, a15) := quarter_round (st.s3, st.s7, st.s11, st.s15)
  let (b0, b5, b10, b15) := quarter_round (a0, a5, a10, a15)
  let (b1, b6, b11, b12) := quarter_round (a1, a6, a11, a12)
  let (b2, b7, b8, b13) := quarter_round (a2, a7, a8, a13)
  let (b3, b4, b9, b14) := quarter_round (a3, a4, a9, a14)
  ⟨b0, b1, b2, b3, b4, b5, b6, b7, b8, b9, b10, b11, b12, b13, b14, b15⟩

def from_le_bytes (bs : List Nat) : Nat := bs.foldr (fun b acc => b + 256 * acc) 0

/-- The i-th little-endian u32 word of a byte buffer (the source reads the
32-byte key and the 12-byte nonce through chunks of exactly four bytes). -/
def le_word (bs : List Nat) (i : Nat) : Nat := from_le_bytes ((bs.drop (4 * i)).take 4)

/-- Translation of config_state from chacha20.rs: four constants, eight key
words, the counter, and three nonce words. -/
def config_state (key nonce : List Nat) (counter : Nat) : State :=
  ⟨0x61707865, 0x3320646e, 0x79622d32, 0x6b206574,
   le_word key 0, le_word key 1, le_word key 2, le_word key 3,
   le_word key 4, le_word key 5, le_word key 6, le_word key 7,
   counter,
   le_word nonce 0, le_word nonce 1, le_word nonce 2⟩

/-- The source's ten-iteration round loop. -/
def rounds : Nat → State → State
  | 0, st => st
  | n+1, st => rounds n (inner_block st)

/-- The four little-endian bytes of a u32 word. -/
def to_le_bytes (w : Nat) : List Nat :=
  [w % 256, w / 256 % 256, w / 65536 % 256, w / 16777216 % 256]

/-- Translation of block from chacha20.rs: run ten double rounds on a copy
of the configured state, add the original state word-wise with wrapping u32
addition, and serialize the sixteen words little-endian. -/
def block (key nonce : List Nat) (counter : Nat) : List Nat :=
  let st := config_state key nonce counter
  let ws := rounds 10 st
  to_le_bytes (wrapping_add st.s0 ws.s0) ++ to_le_bytes (wrapping_add st.s1 ws.s1) ++
  to_le_bytes (wrapping_add st.s2 ws.s2) ++ to_le_bytes (wrapping_add st.s3 ws.s3) ++
  to_le_bytes (wrapping_add st.s4 ws.s4) ++ to_le_bytes (wrapping_add st.s5 ws.s5) ++
  to_le_bytes (wrapping_add st.s6 ws.s6) ++ to_le_bytes (wrapping_add st.s7 ws.s7) ++
  to_le_bytes (wrapping_add st.s8 ws.s8) ++ to_le_bytes (wrapping_add st.s9 ws.s9) ++
  to_le_bytes (wrapping_add st.s10 ws.s10) ++ to_le_bytes (wrapping_add st.s11 ws.s11) ++
  to_le_bytes (wrapping_add st.s12 ws.s12) ++ to_le_bytes (wrapping_add st.s13 ws.s13) ++
  to_le_bytes (wrapping_add st.s14 ws.s14) ++ to_le_bytes (wrapping_add st.s15 ws.s15)

/-- The chunk loop of encrypt_inline: the i-th 64-byte chunk of the message
is xored with the key stream block for counter plus i (a wrapping u32 sum,
matching the source's counter + index as u32).  The fuel is the number of
chunks still allowed, always instantiated with the message length. -/
def encryptInlineGo (key nonce : List Nat) (counter : Nat) : Nat → Nat → List Nat → List Nat
  | 0, _, msg => msg
  | _+1, _, [] => []
  | fuel+1, i, msg =>
    List.zipWith (fun x y => x ^^^ y) (msg.take 64) (block key nonce ((counter + i) % 4294967296)) ++
      encryptInlineGo key nonce counter fuel (i + 1) (msg.drop 64)

/-- Translation of encrypt_inline from chacha20.rs. -/
def encrypt_inline (msg key nonce : List Nat) (counter : Nat) : List Nat :=
  encryptInlineGo key nonce counter msg.length 0 msg

end Chacha20

/-! ## AES-GCM

Translated from src/libcrypto/src/gcm.rs.  The AES block cipher consumed by
Gcm is an external capability (the src/aes.rs module is not among the
provided sources); per the spec (section 6) it is a pure function from a
16-byte block to a 16-byte block, modelled as the enc field.  u128 values
are naturals reduced modulo 2 ^ 128 where the source wraps; 16-byte blocks
and u128 words are identified through big-endian serialization.
-/

def q128 : Nat := 340282366920938463463374607431768211456

/-- The GCM reduction constant R = 0xe1 shifted into the top byte. -/
def R128 : Nat := 0xe1 <<< 120

/-- An error returned when an encrypted message's tag does not match its
generated tag (struct BadData of gcm.rs). -/
structure BadData
deriving DecidableEq

/-- The Gcm state: the block-cipher capability and the hash key
h = enc(0 ^ 16). -/
structure Gcm where
  enc : List Nat → List Nat
  h : Nat

/-- Translation of Gcm::new from gcm.rs: h is the encryption of the zero
block, read big-endian. -/
def Gcm.new (enc : List Nat → List Nat) : Gcm :=
  ⟨enc, from_be_bytes (enc (List.replicate 16 0))⟩

/-- The bit loop of gf_2to128_mult, counting the bit index down from 127:
when bit i of b is set the current temp is xored into the product, and temp
is shifted down with conditional reduction by R128. -/
def gfGo : Nat → Nat → Nat → Nat → Nat
  | 0, product, _, _ => product
  | i+1, product, temp, b =>
    gfGo i (if b.testBit i then product ^^^ temp else product)
      (if temp % 2 = 0 then temp >>> 1 else (temp >>> 1) ^^^ R128) b

/-- Translation of gf_2to128_mult from gcm.rs: multiplication in
GF(2 ^ 128). -/
def gf_2to128_mult (a b : Nat) : Nat := gfGo 128 0 a b

/-- Translation of add_block from gcm.rs: xor the block into the tag and
multiply by h in GF(2 ^ 128). -/
def add_block (tag : Nat) (blockBytes : List Nat) (h : Nat) : Nat :=
  gf_2to128_mult (tag ^^^ from_be_bytes blockBytes) h

/-- The chunks_exact loops of g_hash: fold add_block over the full 16-byte
blocks of the data, stopping at the first incomplete block.  The fuel is
always instantiated above the number of full blocks. -/
def ghashChunksGo (h : Nat) : Nat → Nat → List Nat → Nat
  | 0, tag, _ => tag
  | fuel+1, tag, data =>
    if data.length < 16 then tag
    else ghashChunksGo h fuel (add_block tag (data.take 16) h) (data.drop 16)

/-- The final partial block of g_hash: the trailing len mod 16 bytes copied
into the front of a zero block.  When the length is a multiple of 16 this is
the all-zero block, exactly as the source computes it. -/
def last_block (data : List Nat) : List Nat :=
  (data.drop (16 * (data.length / 16))).take 16 ++ List.replicate (16 - data.length % 16) 0

/-- Translation of g_hash from gcm.rs: hash the full and final blocks of the
additional data and of the ciphertext, xor in the bit lengths, multiply by
h, and xor with the encrypted counter block.  The tag is the u128 value of
the source's big-endian tag bytes. -/
def g_hash (g : Gcm) (cipher_text add_data counter : List Nat) : Nat :=
  let tag0 := ghashChunksGo g.h (add_data.length / 16 + 1) 0 add_data
  let tag1 := add_block tag0 (last_block add_data) g.h
  let tag2 := ghashChunksGo g.h (cipher_text.length / 16 + 1) tag1 cipher_text
  let tag3 := add_block tag2 (last_block cipher_text) g.h
  let tag4 := tag3 ^^^ (((add_data.length * 8) <<< 64) + cipher_text.length * 8) % q128
  let tag5 := gf_2to128_mult tag4 g.h
  tag5 ^^^ from_be_bytes (g.enc counter)

/-- The sixteen big-endian bytes of a u128 word. -/
def beBytesGo : Nat → Nat → List Nat
  | 0, _ => []
  | k+1, v => beBytesGo k (v / 256) ++ [v % 256]

def to_be_bytes16 (v : Nat) : List Nat := beBytesGo 16 v

/-- The chunk loop of xor_bit_stream: the i-th 16-byte chunk of the data is
xored with the encryption of the counter block for iv + 1 + i (u128
arithmetic).  The fuel is always instantiated with the data length. -/
def xorStreamGo (enc : List Nat → List Nat) (ivInt : Nat) : Nat → Nat → List Nat → List Nat
  | 0, _, data => data
  | _+1, _, [] => []
  | fuel+1, i, data =>
    List.zipWith (fun x y => x ^^^ y) (data.take 16) (enc (to_be_bytes16 ((ivInt + 1 + i) % q128))) ++
      xorStreamGo enc ivInt fuel (i + 1) (data.drop 16)

/-- Translation of xor_bit_stream from gcm.rs: counter-mode keystream xor,
its own inverse because xor is. -/
def xor_bit_stream (g : Gcm) (data counter : List Nat) : List Nat :=
  xorStreamGo g.enc (from_be_bytes counter) data.length 0 data

/-- The counter block both encrypt_inline and decrypt_inline build: the
12-byte initialization vector followed by the big-endian u32 one. -/
def counter_block (init_vector : List Nat) : List Nat :=
  init_vector ++ [0, 0, 0, 1]

/-- Translation of Gcm::encrypt_inline from gcm.rs: encrypt the buffer in
counter mode, then tag the resulting ciphertext together with the
additional data.  The returned pair is the mutated buffer and the tag. -/
def Gcm.encrypt_inline (g : Gcm) (plain_text add_data init_vector : List Nat) :
    List Nat × Nat :=
  let counter := counter_block init_vector
  let ct := xor_bit_stream g plain_text counter
  (ct, g_hash g ct add_data counter)

/-- Translation of Gcm::decrypt_inline from gcm.rs: recompute the tag over
the ciphertext and the additional data; on mismatch return BadData with the
buffer untouched, otherwise decrypt the buffer in counter mode.  The
returned pair is the Result and the final buffer contents. -/
def Gcm.decrypt_inline (g : Gcm) (cipher_text add_data init_vector : List Nat)
    (tag : Nat) : Except BadData Unit × List Nat :=
  let counter := counter_block init_vector
  if g_hash g cipher_text add_data counter ≠ tag then (Except.error ⟨⟩, cipher_text)
  else (Except.ok (), xor_bit_stream g cipher_text counter)

/-- A Gcm instance over the trivial block cipher that maps every block to
sixteen zero bytes, used as a concrete instance of the cipher capability. -/
def gcm_test : Gcm := ⟨fun _ => List.replicate 16 0, 0⟩

/-!
# Theorems
-/

/-! ## Field arithmetic lemmas -/

theorem powModGo_one (p : Nat) (hp : 2 ≤ p) : ∀ fuel e, powModGo p fuel 1 e = 1 := by
  intro fuel
  induction fuel with
  | zero =>
    intro e
    simp [powModGo, Nat.mod_eq_of_lt hp]
  | succ f ih =>
    intro e
    by_cases he : e = 0
    · simp [powModGo, he, Nat.mod_eq_of_lt hp]
    · simp [powModGo, he, Nat.mod_eq_of_lt hp, ih]

theorem inverse_one (p : Nat) (hp : 2 ≤ p) : inverse p 1 = 1 :=
  powModGo_one p hp 600 (p - 2)

/-! ## ECDSA and point claims -/

/-- Claim C1, counterexample: at message [], key 1, the all-zero hash
function and nonce 2, the first component returned by generate_signature is
not the x-coordinate of (2 ^ (-1) mod n256) * G256, so the code does not
compute R as the scalar multiple of the base point by the modular inverse
of the nonce. -/
theorem claim_C1_counterexample :
    (generate_signature [] 1 hash_zero 2).1 ≠
      pointX (mul_scalar p256 a256 (order_inverse 2) G256) := by
  decide

/-- Claim C1, amended: for every message, private key, hash function, and
secret nonce, generate_signature computes the curve point R as the scalar
multiplication of the base point G by the nonce itself (R = secret_nonce
times G, no inverse applied to the scalar), and returns R.x as the first
signature component. -/
theorem claim_C1_theorem (msg : List Nat) (key : Nat) (hash_func : List Nat → List Nat)
    (secret_num x y : Nat)
    (h : mul_scalar p256 a256 secret_num G256 = some ⟨x, y⟩) :
    (generate_signature msg key hash_func secret_num).1 = x := by
  simp [generate_signature, h, pointX]

/-- Claim C1, witness: the amended theorem applied at message [], key 1,
the all-zero hash function and nonce 2, where 2 * G256 is the published
doubled base point of secp256r1. -/
theorem claim_C1_witness :
    (generate_signature [] 1 hash_zero 2).1 =
      0x7cf27b188d034f7e8a52380304b51ac3c08969e277f21b35a60b48fc47669978 :=
  claim_C1_theorem [] 1 hash_zero 2
    0x7cf27b188d034f7e8a52380304b51ac3c08969e277f21b35a60b48fc47669978
    0x07775510db8ed040293d9ac69f7430dbba7dade63ce982299e04b79d227873d1
    (by decide)

/-- Claim C2, counterexample: at message [], key 1, the all-zero hash
function and nonce 3, the second component returned by generate_signature
differs from the spec's formula nonce ^ (-1) * (h + r * key) taken with all
arithmetic modulo the curve order n256, even with r taken from the code's
own first component. -/
theorem claim_C2_counterexample :
    (generate_signature [] 1 hash_zero 3).2 ≠
      s_spec [] 1 hash_zero 3 (generate_signature [] 1 hash_zero 3).1 := by
  decide

/-- Claim C2, amended: the second signature component equals
secret_nonce ^ (-1) * (h + r * private_key) with every operation (the
inverse included) performed modulo the field prime p256, not the curve
order, where h is the hash of the message reduced modulo p256 and r is the
first returned component. -/
theorem claim_C2_theorem (msg : List Nat) (key : Nat) (hash_func : List Nat → List Nat)
    (secret_num : Nat) :
    (generate_signature msg key hash_func secret_num).2 =
      fieldMul p256 (inverse p256 secret_num)
        (fieldAdd p256 (from_be_bytes (hash_func msg) % p256)
          (fieldMul p256 (generate_signature msg key hash_func secret_num).1 key)) := rfl

/-- Claim C3: the code returns R.x as a residue modulo the field prime with
no reduction modulo the curve order; the two differ on curve points whose
x-coordinate lies in [n256, p256).  This theorem exhibits such a point: the
concrete coordinates (c3x, c3y) satisfy the secp256r1 curve equation while
n256 ≤ c3x < p256, so reducing c3x modulo the order is not the identity. -/
theorem claim_C3_r_range :
    on_curve p256 a256 b256 ⟨c3x, c3y⟩ = true ∧
      n256 ≤ c3x ∧ c3x < p256 ∧ c3x % n256 ≠ c3x := by
  decide

/-- Claim C4: AffinePoint::add gets the x-coordinate of the chord formula
right but computes the y-coordinate as lambda * (x1 - x2) - y1 instead of
the spec's lambda * (x1 - x3) - y1.  On the curve y ^ 2 = x ^ 3 + 3 x + 8
over the field of 13 elements, adding the on-curve points (1, 5) and (9, 6)
yields (2, 7), which is off the curve, while the spec formula yields the
on-curve point (2, 3). -/
theorem claim_C4_y_formula :
    AffinePoint.add 13 ⟨1, 5⟩ ⟨9, 6⟩ = ⟨2, 7⟩ ∧
      affine_add_spec 13 ⟨1, 5⟩ ⟨9, 6⟩ = ⟨2, 3⟩ ∧
      on_curve 13 3 8 ⟨1, 5⟩ = true ∧
      on_curve 13 3 8 ⟨9, 6⟩ = true ∧
      on_curve 13 3 8 ⟨2, 3⟩ = true ∧
      on_curve 13 3 8 ⟨2, 7⟩ = false := by
  decide

/-- Claim C5: the affine point struct stores only x and y (no infinity
state), and AffinePoint::add applies the chord formula unconditionally.  On
the curve y ^ 2 = x ^ 3 + 3 x + 8 over the field of 13 elements, adding the
on-curve point (1, 5) to its negation produces the finite off-curve point
(11, 8) instead of the point at infinity, and adding the point to itself
produces the same off-curve point instead of dispatching to doubling. -/
theorem claim_C5_no_case_handling :
    AffinePoint.add 13 ⟨1, 5⟩ (AffinePoint.neg 13 ⟨1, 5⟩) = ⟨11, 8⟩ ∧
      on_curve 13 3 8 ⟨11, 8⟩ = false ∧
      AffinePoint.add 13 ⟨1, 5⟩ ⟨1, 5⟩ = ⟨11, 8⟩ ∧
      on_curve 13 3 8 ⟨1, 5⟩ = true := by
  decide

/-- Claim C6: at message [], key 1, nonce 2 and the constant hash function
hash_c6 (whose output deserializes to p256 minus the x-coordinate of
2 * G256), generate_signature silently returns a signature whose second
component is zero: no retry or error path exists in the code. -/
theorem claim_C6_zero_component :
    (generate_signature [] 1 hash_c6 2).2 = 0 := by
  decide

/-- Claim C7: for every affine point (canonical coordinates below the
prime), converting to projective representation (x, y, 1) and back to
affine yields the same point. -/
theorem claim_C7_roundtrip (p x y : Nat) (hp : 2 ≤ p) (hx : x < p) (hy : y < p) :
    ProjectivePoint.as_affine p (AffinePoint.as_projective ⟨x, y⟩) = some ⟨x, y⟩ := by
  have h1 : 1 % p = 1 := Nat.mod_eq_of_lt hp
  simp [AffinePoint.as_projective, ProjectivePoint.as_affine, h1, inverse_one p hp,
    fieldMul, Nat.mod_eq_of_lt hx, Nat.mod_eq_of_lt hy]

/-- Claim C7, witness: the round trip at the point (2, 3) over the field of
13 elements. -/
theorem claim_C7_witness :
    ProjectivePoint.as_affine 13 (AffinePoint.as_projective ⟨2, 3⟩) = some ⟨2, 3⟩ :=
  claim_C7_roundtrip 13 2 3 (by decide) (by decide) (by decide)

/-! ## Keystream-xor lemmas -/

theorem zipWith_xor_cancel :
    ∀ (c k : List Nat), c.length ≤ k.length →
      List.zipWith (fun x y => x ^^^ y) (List.zipWith (fun x y => x ^^^ y) c k) k = c := by
  intro c
  induction c with
  | nil => intro k h; simp
  | cons a c ih =>
    intro k h
    cases k with
    | nil => simp at h
    | cons b k =>
      simp only [List.zipWith_cons_cons]
      rw [Nat.xor_assoc, Nat.xor_self, Nat.xor_zero, ih k (by simpa using h)]

namespace Chacha20

theorem length_block (key nonce : List Nat) (counter : Nat) :
    (block key nonce counter).length = 64 := by
  simp [block, to_le_bytes]

theorem encryptInlineGo_nil (key nonce : List Nat) (counter fuel i : Nat) :
    encryptInlineGo key nonce counter fuel i [] = [] := by
  cases fuel <;> rfl

theorem encryptInlineGo_ne_nil (key nonce : List Nat) (counter f i : Nat)
    (msg : List Nat) (h : msg ≠ []) :
    encryptInlineGo key nonce counter (f + 1) i msg =
      List.zipWith (fun x y => x ^^^ y) (msg.take 64)
          (block key nonce ((counter + i) % 4294967296)) ++
        encryptInlineGo key nonce counter f (i + 1) (msg.drop 64) := by
  cases msg with
  | nil => exact absurd rfl h
  | cons a t => rfl

theorem encryptInlineGo_length (key nonce : List Nat) (counter : Nat) :
    ∀ fuel i msg, (encryptInlineGo key nonce counter fuel i msg).length = msg.length := by
  intro fuel
  induction fuel with
  | zero => intro i msg; rfl
  | succ f ih =>
    intro i msg
    cases msg with
    | nil => rfl
    | cons a t =>
      simp only [encryptInlineGo, List.length_append, ih, List.length_zipWith,
        List.length_take, List.length_drop, length_block]
      omega

theorem encryptInlineGo_cancel (key nonce : List Nat) (counter : Nat) :
    ∀ fuel i msg, msg.length ≤ fuel →
      encryptInlineGo key nonce counter fuel i
        (encryptInlineGo key nonce counter fuel i msg) = msg := by
  intro fuel
  induction fuel with
  | zero =>
    intro i msg h
    have hnil : msg = [] := List.length_eq_zero.mp (Nat.le_zero.mp h)
    subst hnil
    rfl
  | succ f ih =>
    intro i msg h
    cases msg with
    | nil => rfl
    | cons a t =>
      rw [encryptInlineGo_ne_nil key nonce counter f i (a :: t) (by simp)]
      have hK : (block key nonce ((counter + i) % 4294967296)).length = 64 :=
        length_block key nonce ((counter + i) % 4294967296)
      by_cases hle : (a :: t).length ≤ 64
      · have hdrop : (a :: t).drop 64 = [] := List.drop_eq_nil_of_le hle
        rw [hdrop, encryptInlineGo_nil, List.append_nil]
        have hAlen : (List.zipWith (fun x y => x ^^^ y) ((a :: t).take 64)
            (block key nonce ((counter + i) % 4294967296))).length ≤ 64 := by
          simp only [List.length_zipWith, List.length_take, hK]
          omega
        have hAne : List.zipWith (fun x y => x ^^^ y) ((a :: t).take 64)
            (block key nonce ((counter + i) % 4294967296)) ≠ [] := by
          intro hctr
          have h0 := congrArg List.length hctr
          simp only [List.length_zipWith, List.length_take, List.length_cons,
            List.length_nil, hK] at h0
          omega
        rw [encryptInlineGo_ne_nil key nonce counter f i _ hAne]
        rw [List.take_of_length_le hAlen, List.drop_eq_nil_of_le hAlen,
          encryptInlineGo_nil, List.append_nil,
          zipWith_xor_cancel _ _ (by simp only [List.length_take, hK]; omega),
          List.take_of_length_le hle]
      · have h64 : (List.zipWith (fun x y => x ^^^ y) ((a :: t).take 64)
            (block key nonce ((counter + i) % 4294967296))).length = 64 := by
          simp only [List.length_zipWith, List.length_take, hK]
          omega
        have hAne : List.zipWith (fun x y => x ^^^ y) ((a :: t).take 64)
            (block key nonce ((counter + i) % 4294967296)) ++
              encryptInlineGo key nonce counter f (i + 1) ((a :: t).drop 64) ≠ [] := by
          intro hctr
          have h0 := congrArg List.length hctr
          rw [List.length_append, h64] at h0
          simp at h0
        rw [encryptInlineGo_ne_nil key nonce counter f i _ hAne]
        rw [List.take_left' h64, List.drop_left' h64]
        rw [zipWith_xor_cancel _ _ (by simp only [List.length_take, hK]; omega)]
        rw [ih (i + 1) ((a :: t).drop 64) (by simp only [List.length_drop]; omega)]
        exact List.take_append_drop 64 (a :: t)

end Chacha20

/-- Claim C8: ChaCha20 encryption is an involution.  For every byte buffer,
key, nonce and counter, applying encrypt_inline twice with the same key,
nonce and counter restores the buffer to its original contents. -/
theorem claim_C8_involution (msg key nonce : List Nat) (counter : Nat) :
    Chacha20.encrypt_inline (Chacha20.encrypt_inline msg key nonce counter)
      key nonce counter = msg := by
  unfold Chacha20.encrypt_inline
  rw [Chacha20.encryptInlineGo_length]
  exact Chacha20.encryptInlineGo_cancel key nonce counter msg.length 0 msg (Nat.le_refl _)

/-! ## GCM counter-mode lemmas -/

theorem xorStreamGo_nil (enc : List Nat → List Nat) (ivInt fuel i : Nat) :
    xorStreamGo enc ivInt fuel i [] = [] := by
  cases fuel <;> rfl

theorem xorStreamGo_ne_nil (enc : List Nat → List Nat) (ivInt f i : Nat)
    (data : List Nat) (h : data ≠ []) :
    xorStreamGo enc ivInt (f + 1) i data =
      List.zipWith (fun x y => x ^^^ y) (data.take 16)
          (enc (to_be_bytes16 ((ivInt + 1 + i) % q128))) ++
        xorStreamGo enc ivInt f (i + 1) (data.drop 16) := by
  cases data with
  | nil => exact absurd rfl h
  | cons a t => rfl

theorem xorStreamGo_length (enc : List Nat → List Nat) (ivInt : Nat)
    (henc : ∀ bs, (enc bs).length = 16) :
    ∀ fuel i data, (xorStreamGo enc ivInt fuel i data).length = data.length := by
  intro fuel
  induction fuel with
  | zero => intro i data; rfl
  | succ f ih =>
    intro i data
    cases data with
    | nil => rfl
    | cons a t =>
      simp only [xorStreamGo, List.length_append, ih, List.length_zipWith,
        List.length_take, List.length_drop, henc]
      omega

theorem xorStreamGo_cancel (enc : List Nat → List Nat) (ivInt : Nat)
    (henc : ∀ bs, (enc bs).length = 16) :
    ∀ fuel i data, data.length ≤ fuel →
      xorStreamGo enc ivInt fuel i (xorStreamGo enc ivInt fuel i data) = data := by
  intro fuel
  induction fuel with
  | zero =>
    intro i data h
    have hnil : data = [] := List.length_eq_zero.mp (Nat.le_zero.mp h)
    subst hnil
    rfl
  | succ f ih =>
    intro i data h
    cases data with
    | nil => rfl
    | cons a t =>
      rw [xorStreamGo_ne_nil enc ivInt f i (a :: t) (by simp)]
      have hK : (enc (to_be_bytes16 ((ivInt + 1 + i) % q128))).length = 16 := henc _
      by_cases hle : (a :: t).length ≤ 16
      · have hdrop : (a :: t).drop 16 = [] := List.drop_eq_nil_of_le hle
        rw [hdrop, xorStreamGo_nil, List.append_nil]
        have hAlen : (List.zipWith (fun x y => x ^^^ y) ((a :: t).take 16)
            (enc (to_be_bytes16 ((ivInt + 1 + i) % q128)))).length ≤ 16 := by
          simp only [List.length_zipWith, List.length_take, hK]
          omega
        have hAne : List.zipWith (fun x y => x ^^^ y) ((a :: t).take 16)
            (enc (to_be_bytes16 ((ivInt + 1 + i) % q128))) ≠ [] := by
          intro hctr
          have h0 := congrArg List.length hctr
          simp only [List.length_zipWith, List.length_take, List.length_cons,
            List.length_nil, hK] at h0
          omega
        rw [xorStreamGo_ne_nil enc ivInt f i _ hAne]
        rw [List.take_of_length_le hAlen, List.drop_eq_nil_of_le hAlen,
          xorStreamGo_nil, List.append_nil,
          zipWith_xor_cancel _ _ (by simp only [List.length_take, hK]; omega),
          List.take_of_length_le hle]
      · have h16 : (List.zipWith (fun x y => x ^^^ y) ((a :: t).take 16)
            (enc (to_be_bytes16 ((ivInt + 1 + i) % q128)))).length = 16 := by
          simp only [List.length_zipWith, List.length_take, hK]
          omega
        have hAne : List.zipWith (fun x y => x ^^^ y) ((a :: t).take 16)
            (enc (to_be_bytes16 ((ivInt + 1 + i) % q128))) ++
              xorStreamGo enc ivInt f (i + 1) ((a :: t).drop 16) ≠ [] := by
          intro hctr
          have h0 := congrArg List.length hctr
          rw [List.length_append, h16] at h0
          simp at h0
        rw [xorStreamGo_ne_nil enc ivInt f i _ hAne]
        rw [List.take_left' h16, List.drop_left' h16]
        rw [zipWith_xor_cancel _ _ (by simp only [List.length_take, hK]; omega)]
        rw [ih (i + 1) ((a :: t).drop 16) (by simp only [List.length_drop]; omega)]
        exact List.take_append_drop 16 (a :: t)

theorem xor_bit_stream_cancel (g : Gcm) (data counter : List Nat)
    (henc : ∀ bs, (g.enc bs).length = 16) :
    xor_bit_stream g (xor_bit_stream g data counter) counter = data := by
  unfold xor_bit_stream
  rw [xorStreamGo_length g.enc _ henc]
  exact xorStreamGo_cancel g.enc _ henc data.length 0 data (Nat.le_refl _)

/-- Claim C9: Gcm::decrypt_inline returns BadData exactly when the tag it
recomputes over the ciphertext and the additional data differs from the
supplied tag; in the error case the buffer is returned untouched (the tag is
checked before any decryption), and on success the buffer holds the
counter-mode decryption of the ciphertext. -/
theorem claim_C9_tag_check (g : Gcm) (cipher_text add_data init_vector : List Nat)
    (tag : Nat) :
    ((Gcm.decrypt_inline g cipher_text add_data init_vector tag).1 =
        Except.error BadData.mk ↔
      g_hash g cipher_text add_data (counter_block init_vector) ≠ tag) ∧
    (Gcm.decrypt_inline g cipher_text add_data init_vector tag).2 =
      (if g_hash g cipher_text add_data (counter_block init_vector) = tag
        then xor_bit_stream g cipher_text (counter_block init_vector)
        else cipher_text) := by
  unfold Gcm.decrypt_inline
  by_cases h : g_hash g cipher_text add_data (counter_block init_vector) = tag
  · simp [h]
  · simp [h]

/-- Claim C10: GCM round-trip.  For every plaintext, additional data and
initialization vector, encrypting with Gcm::encrypt_inline and then calling
Gcm::decrypt_inline on the resulting ciphertext with the same cipher
instance, additional data, initialization vector and produced tag succeeds
and restores the original plaintext.  The hypothesis is the block-cipher
boundary contract: the cipher capability maps every block to sixteen
bytes. -/
theorem claim_C10_roundtrip (g : Gcm) (plain_text add_data init_vector : List Nat)
    (henc : ∀ bs, (g.enc bs).length = 16) :
    Gcm.decrypt_inline g (Gcm.encrypt_inline g plain_text add_data init_vector).1
        add_data init_vector (Gcm.encrypt_inline g plain_text add_data init_vector).2 =
      (Except.ok (), plain_text) := by
  show Gcm.decrypt_inline g (xor_bit_stream g plain_text (counter_block init_vector))
      add_data init_vector
      (g_hash g (xor_bit_stream g plain_text (counter_block init_vector)) add_data
        (counter_block init_vector)) = (Except.ok (), plain_text)
  unfold Gcm.decrypt_inline
  rw [if_neg (fun hne => hne rfl)]
  rw [xor_bit_stream_cancel g plain_text (counter_block init_vector) henc]

/-- Claim C10, witness: the round trip at the three-byte plaintext
[1, 2, 3], additional data [5] and the zero initialization vector, using the
trivial block cipher gcm_test. -/
theorem claim_C10_witness :
    Gcm.decrypt_inline gcm_test
        (Gcm.encrypt_inline gcm_test [1, 2, 3] [5] (List.replicate 12 0)).1
        [5] (List.replicate 12 0)
        (Gcm.encrypt_inline gcm_test [1, 2, 3] [5] (List.replicate 12 0)).2 =
      (Except.ok (), [1, 2, 3]) :=
  claim_C10_roundtrip gcm_test [1, 2, 3] [5] (List.replicate 12 0) (fun _ => rfl)

end Libcrypto
